import Mathlib

/-!
Verification of the tuIRC repository's IRC protocol core.

The definitions below are a shallow embedding of the TypeScript sources
`src/previous-attempt/src/lib/IrcParser.ts` (the Message Codec: `parse`,
`format`, `extractNickFromPrefix`, `isChannelName`) and
`src/src/lib/IrcClient.ts` (the Connection Manager and Protocol
Dispatcher).  Strings are modelled as `List Char`; JavaScript `Map`s as
association lists in insertion order; thrown exceptions as `Option` /
`Except` results.  Wall-clock time, socket I/O and the random message ids
are outside the model: a timer firing or a socket event is an explicit
step function on the client state.
-/

namespace TuIRC

/-- Shorthand: the character list of a string literal. -/
def str (s : String) : List Char := s.data

/-- The JavaScript `String.prototype.trim` whitespace class
(WhiteSpace ∪ LineTerminator of the ECMAScript spec). -/
def isWs (c : Char) : Bool :=
  c == ' ' || c == '\t' || c == '\n' || c == '\r' ||
  c == '\x0b' || c == '\x0c' || c == '\xa0' ||
  c == '\u1680' || ('\u2000' ≤ c && c ≤ '\u200a') ||
  c == '\u2028' || c == '\u2029' || c == '\u202f' ||
  c == '\u205f' || c == '\u3000' || c == '\ufeff'

/-- JavaScript `s.trim()`: strip leading and trailing whitespace. -/
def trim (s : List Char) : List Char :=
  (((s.dropWhile isWs).reverse).dropWhile isWs).reverse

/-- "is not a space": the predicate behind every `indexOf(" ")` split in
`IrcParser.parse` (`substring(0, i)` = `takeWhile nsp`,
`substring(i + 1)` = tail of `dropWhile nsp`). -/
def nsp (c : Char) : Bool := !(c == ' ')

/-- `IrcMessage` of `src/previous-attempt/src/types/index.ts`
(`prefix?: string` is the field `pre` here). -/
structure IrcMessage where
  pre : Option (List Char)
  command : List Char
  params : List (List Char)
  raw : List Char
deriving DecidableEq, Repr

/-- Fuel-driven worker for the parameter `while` loop of `IrcParser.parse`
(lines 38–53).  The fuel only makes the recursion structural (each
iteration strictly shrinks the remaining text, see `parseParamsGo_eq`); a
token starting with `:` makes the rest of the line the final parameter;
otherwise tokens are split on single spaces. -/
def parseParamsGo (fuel : Nat) (s : List Char) : List (List Char) :=
  match fuel, s with
  | _, [] => []
  | 0, _ :: _ => []
  | fuel + 1, c :: rest =>
    if c = ':' then [rest]
    else
      match (c :: rest).dropWhile nsp with
      | [] => [(c :: rest).takeWhile nsp]
      | _ :: rem => (c :: rest).takeWhile nsp :: parseParamsGo fuel rem

/-- The parameter `while` loop of `IrcParser.parse` (lines 38–53). -/
def parseParams (s : List Char) : List (List Char) :=
  parseParamsGo s.length s

/-- The command-extraction step of `IrcParser.parse` (lines 28–35) followed
by the parameter loop.  Faithful to the source: when the remaining text has
no space (`commandEnd === -1`) the command is set to `remaining` but
`remaining` is NOT consumed, so the parameter loop re-reads the command
text (e.g. `parse "PING"` yields `params = ["PING"]`). -/
def parseCmdParams (remaining : List Char) : List Char × List (List Char) :=
  match remaining.dropWhile nsp with
  | [] => (remaining, parseParams remaining)
  | _ :: rest => (remaining.takeWhile nsp, parseParams rest)

/-- The body of `IrcParser.parse` after `const raw = line.trim()`: prefix
extraction (lines 18–26), then command and parameters. -/
def parseTrimmed (raw : List Char) : Option IrcMessage :=
  match raw with
  | [] => none
  | c :: rest =>
    if c = ':' then
      match rest.dropWhile nsp with
      | [] => none
      | _ :: remaining =>
        some ⟨some (rest.takeWhile nsp), (parseCmdParams remaining).1,
          (parseCmdParams remaining).2, c :: rest⟩
    else
      some ⟨none, (parseCmdParams (c :: rest)).1, (parseCmdParams (c :: rest)).2,
        c :: rest⟩

/-- `IrcParser.parse` (lines 4–56).  The two `throw new Error` sites
(empty message; `:`-prefixed line with no space) are modelled as `none`. -/
def parse (line : List Char) : Option IrcMessage :=
  parseTrimmed (trim line)

/-- The parameter loop of `IrcParser.format` (lines 61–71): falsy (empty)
parameters are skipped; the parameter at the last index is prefixed with
`:` when it contains a space or a colon. -/
def formatParams : List (List Char) → List Char
  | [] => []
  | p :: rest =>
    if rest = [] then
      if p = [] then []
      else if ' ' ∈ p ∨ ':' ∈ p then ' ' :: ':' :: p
      else ' ' :: p
    else (if p = [] then [] else ' ' :: p) ++ formatParams rest

/-- `IrcParser.format` (lines 58–74). -/
def format (command : List Char) (params : List (List Char)) : List Char :=
  command ++ formatParams params

/-- A command whose first character exists and is neither `':'` nor
whitespace (the commands the round-trip property can survive). -/
def headOk (s : List Char) : Bool :=
  match s.head? with
  | none => false
  | some c => !(c == ':') && !isWs c

/-- `IrcParser.extractNickFromPrefix` (lines 93–97): `undefined` or the
empty prefix give the sentinel `"system"`; otherwise the text before the
first `!` (the whole prefix when there is no `!`). -/
def extractNickFromPrefix (p : Option (List Char)) : List Char :=
  match p with
  | none => str "system"
  | some q => if q = [] then str "system" else q.takeWhile (fun c => !(c == '!'))

/-- `IrcParser.isChannelName` (lines 99–101). -/
def isChannelName (name : List Char) : Bool :=
  name.head? = some '#' || name.head? = some '&'

/-! ### JavaScript `Map` as an association list in insertion order -/

/-- `Map.has`. -/
def mapHas {V : Type} (m : List (List Char × V)) (k : List Char) : Bool :=
  m.any (fun e => e.1 = k)

/-- `Map.get` (returning `undefined` as `none`). -/
def mapGet {V : Type} (m : List (List Char × V)) (k : List Char) : Option V :=
  (m.find? (fun e => e.1 = k)).map Prod.snd

/-- `Map.set`: replace in place when the key exists, else append. -/
def mapSet {V : Type} : List (List Char × V) → List Char → V → List (List Char × V)
  | [], k, v => [(k, v)]
  | e :: t, k, v => if e.1 = k then (k, v) :: t else e :: mapSet t k v

/-- `Map.delete`. -/
def mapDelete {V : Type} (m : List (List Char × V)) (k : List Char) :
    List (List Char × V) :=
  m.filter (fun e => e.1 ≠ k)

/-! ### The connection manager and protocol dispatcher (`IrcClient.ts`) -/

/-- `ConnectionState` of `src/types/index.ts`. -/
inductive CState where
  | disconnected | connecting | connected | reconnecting | error
deriving DecidableEq, Repr

/-- `User` (`nick` plus `modes`; the unused optional `realname` is omitted). -/
structure User where
  nick : List Char
  modes : List (List Char)
deriving DecidableEq, Repr

/-- `Channel`: name, optional topic, and the nick → `User` roster map.
The `messages` / `latestMessage` fields are omitted: nothing in
`IrcClient.ts` ever writes them. -/
structure Channel where
  name : List Char
  topic : Option (List Char) := none
  users : List (List Char × User) := []
deriving DecidableEq, Repr

/-- The events `IrcClient` emits (`this.emit(...)`), plus `sentEv` for a
line written to the socket by `send`.  The random id and timestamp of a
`Message` are outside the model, so `messageEv` carries nick, target and
content. -/
inductive Ev where
  | connectingEv
  | connectedEv
  | disconnectedEv
  | errorEv
  | reconnectingEv (attempt : Nat)
  | reconnectFailedEv
  | systemEv (content : List Char)
  | joinEv (nick channel : List Char)
  | partEv (nick channel : List Char) (reason : Option (List Char))
  | messageEv (nick target content : List Char)
  | quitEv (nick : List Char) (reason : Option (List Char))
      (affectedChannels : List (List Char))
  | userlistEv (channel : List Char) (users : List User)
  | topicEv (channel topic : List Char)
  | nickEv (oldNick newNick : List Char)
  | sentEv (line : List Char)
deriving DecidableEq, Repr

/-- The mutable fields of `IrcClient`.  `socketPresent` models
`this.socket !== null`; `pendingReconnect` models a live
`setTimeout(connect, ...)` from `scheduleReconnect`; `pingTimer` models
`this.pingInterval`.  `server`/`port`/`lastPingTime` carry no logic the
claims touch and are omitted. -/
structure Client where
  connectionState : CState
  channels : List (List Char × Channel)
  currentNick : List Char
  socketPresent : Bool
  reconnectAttempts : Nat
  pendingReconnect : Bool
  pingTimer : Bool
deriving DecidableEq, Repr

def maxReconnectAttempts : Nat := 5

/-- A freshly constructed client. -/
def initialClient : Client :=
  ⟨CState.disconnected, [], [], false, 0, false, false⟩

/-- `IrcClient.send` (lines 152–159): throws (`none`) when the socket is
null or the state is `"disconnected"`; otherwise returns the line written
to the socket (`format` plus CRLF). -/
def sendResult (c : Client) (command : List Char) (params : List (List Char)) :
    Option (List Char) :=
  if !c.socketPresent || c.connectionState = CState.disconnected then none
  else some (format command params ++ ['\r', '\n'])

/-- A `send` whose exception is swallowed by a caller's `try`/`catch`
(as in `handleRawMessage`): the successful write becomes a `sentEv`. -/
def doSend (c : Client) (command : List Char) (params : List (List Char)) :
    List Ev :=
  match sendResult c command params with
  | none => []
  | some line => [Ev.sentEv line]

/-- `IrcClient.handleJoin` (lines 230–247). -/
def handleJoin (c : Client) (nick channel : List Char) : Client × List Ev :=
  let chans :=
    if mapHas c.channels channel then c.channels
    else mapSet c.channels channel ⟨channel, none, []⟩
  match mapGet chans channel with
  | none => ({c with channels := chans}, [])
  | some ch =>
    let ch' := {ch with users := mapSet ch.users nick ⟨nick, []⟩}
    ({c with channels := mapSet chans channel ch'}, [Ev.joinEv nick channel])

/-- `IrcClient.handlePart` (lines 249–257). -/
def handlePart (c : Client) (nick channel : List Char)
    (reason : Option (List Char)) : Client × List Ev :=
  match mapGet c.channels channel with
  | none => (c, [])
  | some ch =>
    ({c with channels :=
        mapSet c.channels channel {ch with users := mapDelete ch.users nick}},
     [Ev.partEv nick channel reason])

/-- `IrcClient.handlePrivmsg` (lines 259–284): creates the channel when the
target is a channel name not yet known; always emits the message event. -/
def handlePrivmsg (c : Client) (nick target content : List Char) :
    Client × List Ev :=
  let isChan := isChannelName target
  let known := if isChan then mapHas c.channels target else mapHas c.channels nick
  let chans :=
    if !known && isChan then mapSet c.channels target ⟨target, none, []⟩
    else c.channels
  ({c with channels := chans}, [Ev.messageEv nick target content])

/-- `IrcClient.handleQuit` (lines 286–299): remove the nick from every
roster containing it, collect those channels' names, emit one event. -/
def handleQuit (c : Client) (nick : List Char) (reason : Option (List Char)) :
    Client × List Ev :=
  let affected := (c.channels.filter (fun e => mapHas e.2.users nick)).map
    (fun e => e.2.name)
  ({c with channels := c.channels.map (fun e =>
      if mapHas e.2.users nick then (e.1, {e.2 with users := mapDelete e.2.users nick})
      else e)},
   [Ev.quitEv nick reason affected])

/-- JavaScript `s.split(" ")` (single-space separator, empties kept). -/
def splitSpGo (fuel : Nat) (s : List Char) : List (List Char) :=
  match fuel with
  | 0 => [s]
  | fuel + 1 =>
    match s.dropWhile nsp with
    | [] => [s]
    | _ :: rest => s.takeWhile nsp :: splitSpGo fuel rest

def splitSp (s : List Char) : List (List Char) :=
  splitSpGo s.length s

/-- One entry of the NAMES list in `handleNames` (lines 306–321): a leading
`@` marks mode `"op"`, a leading `+` marks mode `"voice"`; both are
stripped. -/
def namesEntry (name : List Char) : List Char × List (List Char) :=
  match name with
  | '@' :: n => (n, [str "op"])
  | '+' :: n => (n, [str "voice"])
  | n => (n, [])

/-- The `for` loop of `handleNames`: empty tokens are skipped, each other
token is parsed and `set` into the existing roster. -/
def namesFold (users : List (List Char × User)) (names : List (List Char)) :
    List (List Char × User) :=
  names.foldl (fun acc name =>
    if name = [] then acc
    else
      let e := namesEntry name
      mapSet acc e.1 ⟨e.1, e.2⟩) users

/-- `IrcClient.handleNames` (lines 301–326): NOTE it returns untouched when
the channel is not already present (`if (!channelData) return`). -/
def handleNames (c : Client) (channel namesList : List Char) : Client × List Ev :=
  match mapGet c.channels channel with
  | none => (c, [])
  | some ch =>
    let users' := namesFold ch.users (splitSp namesList)
    ({c with channels := mapSet c.channels channel {ch with users := users'}},
     [Ev.userlistEv channel (users'.map Prod.snd)])

/-- `IrcClient.handleTopic` (lines 328–334). -/
def handleTopic (c : Client) (channel topic : List Char) : Client × List Ev :=
  match mapGet c.channels channel with
  | none => (c, [])
  | some ch =>
    ({c with channels := mapSet c.channels channel {ch with topic := some topic}},
     [Ev.topicEv channel topic])

/-- `IrcClient.handleNickChange` (lines 336–352): in a JS `Map`,
`delete` + `set` moves the entry to the end of the insertion order. -/
def handleNickChange (c : Client) (oldNick newNick : List Char) :
    Client × List Ev :=
  let c1 := if oldNick = c.currentNick then {c with currentNick := newNick} else c
  ({c1 with channels := c1.channels.map (fun e =>
      match mapGet e.2.users oldNick with
      | none => e
      | some u =>
        let users' := mapSet (mapDelete e.2.users oldNick) newNick {u with nick := newNick}
        (e.1, {e.2 with users := users'}))},
   [Ev.nickEv oldNick newNick])

/-- JavaScript `toUpperCase` restricted to ASCII (all commands are ASCII). -/
def toUpper (s : List Char) : List Char := s.map Char.toUpper

/-- `IrcClient.processMessage` (lines 170–228), with the same truthiness
guards on `params[i]` (absent or empty parameters are falsy). -/
def processMessage (c : Client) (m : IrcMessage) : Client × List Ev :=
  let nick := extractNickFromPrefix m.pre
  let cmd := toUpper m.command
  let p0 := m.params.getD 0 []
  if cmd = str "PING" then (c, doSend c (str "PONG") m.params)
  else if cmd = str "PONG" then (c, [])
  else if cmd = str "001" ∨ cmd = str "002" ∨ cmd = str "003" ∨
      cmd = str "004" ∨ cmd = str "005" then
    (c, [Ev.systemEv (str "Server: " ++ List.intercalate (str " ") (m.params.drop 1))])
  else if cmd = str "JOIN" then
    if p0 ≠ [] then handleJoin c nick p0 else (c, [])
  else if cmd = str "PART" then
    if p0 ≠ [] then handlePart c nick p0 (m.params.get? 1) else (c, [])
  else if cmd = str "PRIVMSG" then
    if p0 ≠ [] ∧ m.params.getD 1 [] ≠ [] then
      handlePrivmsg c nick p0 (m.params.getD 1 [])
    else (c, [])
  else if cmd = str "QUIT" then handleQuit c nick (m.params.get? 0)
  else if cmd = str "353" then
    if m.params.getD 2 [] ≠ [] ∧ m.params.getD 3 [] ≠ [] then
      handleNames c (m.params.getD 2 []) (m.params.getD 3 [])
    else (c, [])
  else if cmd = str "366" then (c, [])
  else if cmd = str "332" then
    if m.params.getD 1 [] ≠ [] ∧ m.params.getD 2 [] ≠ [] then
      handleTopic c (m.params.getD 1 []) (m.params.getD 2 [])
    else (c, [])
  else if cmd = str "NICK" then
    if p0 ≠ [] then handleNickChange c nick p0 else (c, [])
  else (c, [])

/-- `IrcClient.handleRawMessage` (lines 161–168): a parse failure is caught
and logged — the state is untouched and no event is emitted. -/
def handleRawMessage (c : Client) (line : List Char) : Client × List Ev :=
  match parse line with
  | none => (c, [])
  | some m => processMessage c m

/-- Process a list of already-framed lines in order, accumulating events. -/
def processLines (c : Client) (lines : List (List Char)) : Client × List Ev :=
  lines.foldl (fun acc line =>
    let r := handleRawMessage acc.1 line
    (r.1, acc.2 ++ r.2)) (c, [])

/-- JavaScript `s.split("\n")` (empties kept). -/
def splitNlGo (fuel : Nat) (s : List Char) : List (List Char) :=
  match fuel with
  | 0 => [s]
  | fuel + 1 =>
    match s.dropWhile (fun c => !(c == '\n')) with
    | [] => [s]
    | _ :: rest => s.takeWhile (fun c => !(c == '\n')) :: splitNlGo fuel rest

def splitNl (s : List Char) : List (List Char) :=
  splitNlGo s.length s

/-- The `data` handler of `setupSocketHandlers` (lines 97–104): each read
chunk is split on `"\n"` IN ISOLATION (no carry-over buffer), each line is
trimmed, and non-empty lines go to `handleRawMessage`. -/
def chunkLines (chunk : List Char) : List (List Char) :=
  ((splitNl chunk).map trim).filter (fun l => l ≠ [])

/-- Feeding one socket read chunk to the client. -/
def onData (c : Client) (chunk : List Char) : Client × List Ev :=
  processLines c (chunkLines chunk)

/-- Feeding several consecutive socket read chunks. -/
def onChunks (c : Client) (chunks : List (List Char)) : Client × List Ev :=
  chunks.foldl (fun acc chunk =>
    let r := onData acc.1 chunk
    (r.1, acc.2 ++ r.2)) (c, [])

/-! ### Connection lifecycle steps -/

/-- `IrcClient.scheduleReconnect` (lines 354–366). -/
def scheduleReconnect (c : Client) : Client × List Ev :=
  if c.reconnectAttempts < maxReconnectAttempts then
    let c1 := {c with reconnectAttempts := c.reconnectAttempts + 1}
    let c2 := {c1 with connectionState := CState.reconnecting, pendingReconnect := true}
    (c2, [Ev.reconnectingEv (c.reconnectAttempts + 1)])
  else (c, [Ev.reconnectFailedEv])

inductive ConnectErr where
  | alreadyConnecting | alreadyConnected
deriving DecidableEq, Repr

/-- `IrcClient.connect` (lines 30–82) on the path where the inputs are
valid but TCP establishment fails (socket error or timeout): the guards
may throw; otherwise the state walks through `"connecting"`, the socket is
created, the `await` rejects, and the `catch` block sets `"error"`, emits
the error and calls `scheduleReconnect`. -/
def connectAttemptFail (c : Client) : Except ConnectErr (Client × List Ev) :=
  if c.connectionState = CState.connecting then .error .alreadyConnecting
  else if c.connectionState = CState.connected then .error .alreadyConnected
  else
    let c1 := {c with connectionState := CState.connecting, socketPresent := true}
    let c2 := {c1 with connectionState := CState.error}
    let r := scheduleReconnect c2
    .ok (r.1, Ev.connectingEv :: Ev.errorEv :: r.2)

/-- The `setTimeout` of `scheduleReconnect` firing, with the re-invoked
`connect` again failing to establish TCP.  A fire with no pending timer is
a no-op; a guard rejection leaves the state unchanged (the promise
rejection is unobserved). -/
def fireReconnectFail (c : Client) : Client × List Ev :=
  if c.pendingReconnect then
    match connectAttemptFail {c with pendingReconnect := false} with
    | .ok r => r
    | .error _ => ({c with pendingReconnect := false}, [])
  else (c, [])

/-- `n` consecutive reconnect-timer firings, each failing to connect. -/
def runFailures : Nat → Client × List Ev → Client × List Ev
  | 0, acc => acc
  | n + 1, acc =>
    let r := fireReconnectFail acc.1
    runFailures n (r.1, acc.2 ++ r.2)

/-- A fresh client whose first `connect` fails, followed by `n`
consecutive automatically scheduled reconnect attempts that all fail. -/
def failedConnectTrace (n : Nat) : Client × List Ev :=
  match connectAttemptFail initialClient with
  | .ok r => runFailures n r
  | .error _ => (initialClient, [])

/-- `IrcClient.disconnect` (lines 84–92): `socket.end()` and
`socket = null`, state to `"disconnected"`, ping timer cleared,
`disconnected` emitted.  No flag recording the explicit disconnect is set,
and the pending reconnect timer (if any) is NOT cancelled. -/
def disconnectStep (c : Client) : Client × List Ev :=
  let c1 := {c with socketPresent := false, connectionState := CState.disconnected}
  ({c1 with pingTimer := false}, [Ev.disconnectedEv])

/-- The socket `close` handler of `setupSocketHandlers` (lines 106–114):
fires when the underlying socket closes — including the close caused by an
explicit `disconnect()` — and schedules a reconnect whenever the attempt
counter is below the maximum. -/
def socketCloseEvent (c : Client) : Client × List Ev :=
  let c1 := {c with connectionState := CState.disconnected, pingTimer := false}
  if c1.reconnectAttempts < maxReconnectAttempts then
    let r := scheduleReconnect c1
    (r.1, Ev.disconnectedEv :: r.2)
  else (c1, [Ev.disconnectedEv])

/-- `IrcClient.quit` (lines 147–150): a truthy reason is passed to `send`
already wrapped as `":" + reason`; the result is the wire line written. -/
def quitWire (c : Client) (reason : Option (List Char)) : Option (List Char) :=
  let params :=
    match reason with
    | some r => if r = [] then [] else [':' :: r]
    | none => []
  sendResult c (str "QUIT") params

/-- A connected client (state after a successful `connect`). -/
def connectedClient : Client :=
  ⟨CState.connected, [], str "me", true, 0, false, true⟩

/-- A connected client knowing one empty channel `#x`. -/
def namesDemoClient : Client :=
  ⟨CState.connected, [(str "#x", ⟨str "#x", none, []⟩)], str "me", true, 0, false, true⟩

/-- A connected client where `#x` has users `a` and `b`, and `#y` has `b`. -/
def quitDemoClient : Client :=
  ⟨CState.connected,
   [(str "#x", ⟨str "#x", none, [(str "a", ⟨str "a", []⟩), (str "b", ⟨str "b", []⟩)]⟩),
    (str "#y", ⟨str "#y", none, [(str "b", ⟨str "b", []⟩)]⟩)],
   str "me", true, 0, false, true⟩

/-! ## Lemmas ## -/

/-! ### The split predicates -/

theorem nsp_true_iff {c : Char} : nsp c = true ↔ c ≠ ' ' := by
  simp [nsp]

theorem nsp_false_iff {c : Char} : nsp c = false ↔ c = ' ' := by
  simp [nsp]

theorem isWs_space : isWs ' ' = true := by decide

/-! ### Association-list `Map` lemmas -/

theorem mapHas_mapDelete {V : Type} (m : List (List Char × V)) (k : List Char) :
    mapHas (mapDelete m k) k = false := by
  simp only [mapHas, mapDelete, List.any_eq_false]
  intro e he
  have h := List.of_mem_filter he
  simpa using h

theorem mapGet_cons_of_ne {V : Type} (e : List Char × V) (t : List (List Char × V))
    (k : List Char) (h : e.1 ≠ k) : mapGet (e :: t) k = mapGet t k := by
  unfold mapGet
  rw [List.find?_cons_of_neg _ (by simpa using h)]

theorem mapGet_mapSet_self {V : Type} (m : List (List Char × V)) (k : List Char) (v : V) :
    mapGet (mapSet m k v) k = some v := by
  induction m with
  | nil =>
    show mapGet [(k, v)] k = some v
    unfold mapGet
    rw [List.find?_cons_of_pos _ (by simp)]
    rfl
  | cons e t ih =>
    by_cases h : e.1 = k
    · show mapGet (if e.1 = k then (k, v) :: t else e :: mapSet t k v) k = some v
      rw [if_pos h]
      unfold mapGet
      rw [List.find?_cons_of_pos _ (by simp)]
      rfl
    · show mapGet (if e.1 = k then (k, v) :: t else e :: mapSet t k v) k = some v
      rw [if_neg h, mapGet_cons_of_ne e _ k h]
      exact ih

theorem mapGet_eq_none_of_not_has {V : Type} {m : List (List Char × V)} {k : List Char}
    (h : mapHas m k = false) : mapGet m k = none := by
  induction m with
  | nil => rfl
  | cons e t ih =>
    simp only [mapHas, List.any_cons, Bool.or_eq_false_iff] at h
    have h1 : e.1 ≠ k := by simpa using h.1
    rw [mapGet_cons_of_ne e t k h1]
    exact ih h.2

/-! ### Fuel elimination for `parseParamsGo` -/

theorem parseParamsGo_irrel (f1 : Nat) :
    ∀ (f2 : Nat) (s : List Char), s.length ≤ f1 → s.length ≤ f2 →
      parseParamsGo f1 s = parseParamsGo f2 s := by
  induction f1 with
  | zero =>
    intro f2 s h1 _
    have hs : s = [] := List.eq_nil_of_length_eq_zero (Nat.le_zero.mp h1)
    subst hs
    cases f2 <;> rfl
  | succ f1 ih =>
    intro f2 s h1 h2
    cases s with
    | nil => cases f2 <;> rfl
    | cons c rest =>
      simp only [List.length_cons] at h1 h2
      cases f2 with
      | zero => omega
      | succ f2 =>
        by_cases hc : c = ':'
        · simp [parseParamsGo, hc]
        · cases hdw : (c :: rest).dropWhile nsp with
          | nil => simp [parseParamsGo, hc, hdw]
          | cons x rem =>
            have hr : rem.length ≤ rest.length := by
              have h3 : ((c :: rest).dropWhile nsp).length ≤ (c :: rest).length :=
                (List.dropWhile_suffix nsp).sublist.length_le
              rw [hdw] at h3
              simpa using h3
            simp only [parseParamsGo, if_neg hc, hdw]
            rw [ih f2 rem (hr.trans (by omega)) (hr.trans (by omega))]

theorem parseParams_nil : parseParams [] = [] := rfl

theorem parseParams_cons (c : Char) (rest : List Char) :
    parseParams (c :: rest) =
      if c = ':' then [rest]
      else
        match (c :: rest).dropWhile nsp with
        | [] => [(c :: rest).takeWhile nsp]
        | _ :: rem => (c :: rest).takeWhile nsp :: parseParams rem := by
  show parseParamsGo (c :: rest).length (c :: rest) = _
  by_cases hc : c = ':'
  · simp [parseParamsGo, hc]
  · cases hdw : (c :: rest).dropWhile nsp with
    | nil => simp [parseParamsGo, hc, hdw]
    | cons x rem =>
      have hr : rem.length ≤ rest.length := by
        have h3 : ((c :: rest).dropWhile nsp).length ≤ (c :: rest).length :=
          (List.dropWhile_suffix nsp).sublist.length_le
        rw [hdw] at h3
        simpa using h3
      simp only [List.length_cons, parseParamsGo, if_neg hc, hdw]
      rw [parseParamsGo_irrel rest.length rem.length rem hr le_rfl]
      rfl

/-! ### Evaluation lemmas for the parameter loop on formatted shapes -/

theorem parseParams_trailing (p : List Char) : parseParams (':' :: p) = [p] := by
  rw [parseParams_cons]
  simp

theorem parseParams_single (p : List Char) (hp : p ≠ []) (hh : p.head? ≠ some ':')
    (hsp : ' ' ∉ p) : parseParams p = [p] := by
  cases p with
  | nil => exact absurd rfl hp
  | cons c p' =>
    have hc : c ≠ ':' := by
      intro h
      exact hh (by rw [h]; rfl)
    have hall : ∀ a ∈ c :: p', nsp a := by
      intro a ha
      exact nsp_true_iff.mpr (fun h => hsp (h ▸ ha))
    rw [parseParams_cons, if_neg hc]
    have hdw : (c :: p').dropWhile nsp = [] := List.dropWhile_eq_nil_iff.mpr hall
    rw [hdw]
    have htw : (c :: p').takeWhile nsp = c :: p' := List.takeWhile_eq_self_iff.mpr hall
    rw [htw]

theorem parseParams_token (p rest' : List Char) (hp : p ≠ []) (hh : p.head? ≠ some ':')
    (hsp : ' ' ∉ p) : parseParams (p ++ ' ' :: rest') = p :: parseParams rest' := by
  cases p with
  | nil => exact absurd rfl hp
  | cons c p' =>
    have hc : c ≠ ':' := by
      intro h
      exact hh (by rw [h]; rfl)
    have hall : ∀ a ∈ c :: p', nsp a := by
      intro a ha
      exact nsp_true_iff.mpr (fun h => hsp (h ▸ ha))
    have hdw : ((c :: p') ++ ' ' :: rest').dropWhile nsp = ' ' :: rest' := by
      rw [List.dropWhile_append_of_pos hall, List.dropWhile_cons_of_neg (by simp [nsp])]
    have htw : ((c :: p') ++ ' ' :: rest').takeWhile nsp = c :: p' := by
      rw [List.takeWhile_append_of_pos hall, List.takeWhile_cons_of_neg (by simp [nsp])]
      simp
    show parseParams (c :: (p' ++ ' ' :: rest')) = _
    rw [parseParams_cons, if_neg hc]
    rw [show (c :: (p' ++ ' ' :: rest')) = (c :: p') ++ ' ' :: rest' from rfl, hdw, htw]

/-! ### Structure of the parameter loop's output -/

theorem parseParams_ne_nil {s : List Char} (h : s ≠ []) : parseParams s ≠ [] := by
  cases s with
  | nil => exact absurd rfl h
  | cons c rest =>
    rw [parseParams_cons]
    by_cases hc : c = ':'
    · simp [hc]
    · rw [if_neg hc]
      cases hdw : (c :: rest).dropWhile nsp <;> simp

theorem parseParamsGo_middle (fuel : Nat) :
    ∀ (s : List Char), ∀ p ∈ (parseParamsGo fuel s).dropLast,
      ' ' ∉ p ∧ p.head? ≠ some ':' := by
  induction fuel with
  | zero =>
    intro s p hp
    cases s <;> simp [parseParamsGo] at hp
  | succ fuel ih =>
    intro s p hp
    cases s with
    | nil => simp [parseParamsGo] at hp
    | cons c rest =>
      by_cases hc : c = ':'
      · simp [parseParamsGo, hc] at hp
      · cases hdw : (c :: rest).dropWhile nsp with
        | nil => simp [parseParamsGo, if_neg hc, hdw] at hp
        | cons x rem =>
          simp only [parseParamsGo, if_neg hc, hdw] at hp
          cases hrec : parseParamsGo fuel rem with
          | nil => rw [hrec] at hp; simp at hp
          | cons q l =>
            rw [hrec, List.dropLast_cons₂] at hp
            rcases List.mem_cons.mp hp with hptw | hpl
            · subst hptw
              constructor
              · intro hmem
                have := List.mem_takeWhile_imp hmem
                simp [nsp] at this
              · by_cases hcsp : nsp c
                · rw [List.takeWhile_cons_of_pos hcsp]
                  intro hcon
                  exact hc (by simpa using hcon)
                · rw [List.takeWhile_cons_of_neg hcsp]
                  simp
            · exact ih rem p (by rw [hrec]; exact hpl)

theorem parseParams_middle (s : List Char) :
    ∀ p ∈ (parseParams s).dropLast, ' ' ∉ p ∧ p.head? ≠ some ':' :=
  parseParamsGo_middle s.length s

/-! ### `getLast?` helpers -/

theorem getLast?_cons_of_ne_nil {α : Type} (a : α) {l : List α} (h : l ≠ []) :
    (a :: l).getLast? = l.getLast? := by
  cases l with
  | nil => exact absurd rfl h
  | cons b t => exact List.getLast?_cons_cons

theorem getLast?_append_of_ne_nil {α : Type} (l₁ : List α) {l₂ : List α} (h : l₂ ≠ []) :
    (l₁ ++ l₂).getLast? = l₂.getLast? := by
  rw [List.getLast?_append]
  cases h2 : l₂.getLast? with
  | none => exact absurd (List.getLast?_eq_none_iff.mp h2) h
  | some a => rfl

theorem getLast?_of_suffix {α : Type} {l₁ l₂ : List α} (h : l₁ <:+ l₂) (hne : l₁ ≠ []) :
    l₂.getLast? = l₁.getLast? := by
  obtain ⟨t, rfl⟩ := h
  exact getLast?_append_of_ne_nil t hne

theorem mem_of_getLast? {α : Type} {l : List α} {a : α} (h : l.getLast? = some a) :
    a ∈ l := by
  cases l with
  | nil => simp at h
  | cons x t =>
    rw [List.getLast?_eq_getLast _ (by simp)] at h
    have h2 : (x :: t).getLast (by simp) = a := by exact Option.some.inj h
    exact h2 ▸ List.getLast_mem _

/-! ### The last parameter is a suffix of the remaining text -/

theorem parseParams_last_suffix_aux (n : Nat) :
    ∀ (s : List Char), s.length ≤ n → s.getLast? ≠ some ' ' →
      ∀ p, (parseParams s).getLast? = some p → p <:+ s := by
  induction n with
  | zero =>
    intro s h1 _ p hp
    have hs : s = [] := List.eq_nil_of_length_eq_zero (Nat.le_zero.mp h1)
    subst hs
    simp [parseParams_nil] at hp
  | succ n ih =>
    intro s h1 hlast p hp
    cases s with
    | nil => simp [parseParams_nil] at hp
    | cons c rest =>
      rw [parseParams_cons] at hp
      by_cases hc : c = ':'
      · rw [if_pos hc] at hp
        simp at hp
        exact hp ▸ ⟨[c], rfl⟩
      · rw [if_neg hc] at hp
        cases hdw : (c :: rest).dropWhile nsp with
        | nil =>
          rw [hdw] at hp
          simp at hp
          have htw : (c :: rest).takeWhile nsp = c :: rest := by
            have h5 := List.takeWhile_append_dropWhile nsp (c :: rest)
            rw [hdw, List.append_nil] at h5
            exact h5
          rw [← hp, htw]
        | cons x rem =>
          rw [hdw] at hp
          change (List.takeWhile nsp (c :: rest) :: parseParams rem).getLast? = some p at hp
          have hsub : (x :: rem) <:+ (c :: rest) := hdw ▸ List.dropWhile_suffix nsp
          have hxsp : x = ' ' := by
            have h4 := List.head?_dropWhile_not nsp (c :: rest)
            rw [hdw] at h4
            simp only [List.head?_cons] at h4
            exact nsp_false_iff.mp h4
          cases hrm : rem with
          | nil =>
            subst hrm
            have hgl : (c :: rest).getLast? = some ' ' := by
              rw [getLast?_of_suffix hsub (by simp), hxsp]
              rfl
            exact absurd hgl hlast
          | cons y rem' =>
            have hremne : rem ≠ [] := by rw [hrm]; simp
            rw [getLast?_cons_of_ne_nil _ (parseParams_ne_nil hremne)] at hp
            have hsub2 : rem <:+ (c :: rest) := (List.suffix_cons x rem).trans hsub
            have hlen : rem.length ≤ n := by
              have h6 := hsub.sublist.length_le
              simp only [List.length_cons] at h1 h6
              omega
            have hlast2 : rem.getLast? ≠ some ' ' := by
              rw [← getLast?_of_suffix hsub2 hremne]
              exact hlast
            exact (ih rem hlen hlast2 p hp).trans hsub2

theorem parseParams_last_suffix {s : List Char} (hlast : s.getLast? ≠ some ' ')
    {p : List Char} (hp : (parseParams s).getLast? = some p) : p <:+ s :=
  parseParams_last_suffix_aux s.length s le_rfl hlast p hp

/-! ### `trim` lemmas -/

theorem trim_getLast_not_ws {l : List Char} {c : Char}
    (h : (trim l).getLast? = some c) : isWs c = false := by
  unfold trim at h
  rw [List.getLast?_reverse] at h
  have h2 := List.head?_dropWhile_not isWs ((l.dropWhile isWs).reverse)
  rw [h] at h2
  exact h2

theorem trim_eq_self {l : List Char}
    (h1 : ∀ c, l.head? = some c → isWs c = false)
    (h2 : ∀ c, l.getLast? = some c → isWs c = false) : trim l = l := by
  have hA : l.dropWhile isWs = l := by
    cases l with
    | nil => rfl
    | cons c t => rw [List.dropWhile_cons_of_neg (by simp [h1 c rfl])]
  unfold trim
  rw [hA]
  have hB : l.reverse.dropWhile isWs = l.reverse := by
    cases hr : l.reverse with
    | nil => rfl
    | cons c t =>
      have hg : l.getLast? = some c := by
        rw [← List.head?_reverse, hr]
        rfl
      rw [List.dropWhile_cons_of_neg (by simp [h2 c hg])]
  rw [hB, List.reverse_reverse]

/-! ### The format loop's output re-parses to the same parameters -/

theorem formatParams_singleton (p : List Char) :
    formatParams [p] =
      if p = [] then []
      else if ' ' ∈ p ∨ ':' ∈ p then ' ' :: ':' :: p
      else ' ' :: p := rfl

theorem formatParams_cons_cons (p q : List Char) (rest' : List (List Char)) :
    formatParams (p :: q :: rest') =
      (if p = [] then [] else ' ' :: p) ++ formatParams (q :: rest') := rfl

theorem formatParams_shape :
    ∀ (ps : List (List Char)), ps ≠ [] →
      (∀ p ∈ ps.dropLast, p ≠ [] ∧ ' ' ∉ p ∧ p.head? ≠ some ':') →
      (∀ p, ps.getLast? = some p → p ≠ []) →
      ∃ r, formatParams ps = ' ' :: r ∧ r ≠ [] ∧ parseParams r = ps ∧
        (∀ p, ps.getLast? = some p → r.getLast? = p.getLast?) := by
  intro ps
  induction ps with
  | nil => intro hps; exact absurd rfl hps
  | cons p rest ih =>
    intro _ hmid hlast
    cases hr : rest with
    | nil =>
      subst hr
      have hpne : p ≠ [] := hlast p (by simp)
      by_cases hcol : ' ' ∈ p ∨ ':' ∈ p
      · refine ⟨':' :: p, ?_, by simp, parseParams_trailing p, ?_⟩
        · rw [formatParams_singleton, if_neg hpne, if_pos hcol]
        · intro q hq
          simp only [List.getLast?_singleton, Option.some.injEq] at hq
          subst hq
          exact getLast?_cons_of_ne_nil ':' hpne
      · have hsp : ' ' ∉ p := fun hm => hcol (Or.inl hm)
        have hcl : ':' ∉ p := fun hm => hcol (Or.inr hm)
        have hph : p.head? ≠ some ':' := by
          cases p with
          | nil => simp
          | cons c t =>
            intro hcc
            rw [List.head?_cons] at hcc
            have hc2 : c = ':' := Option.some.inj hcc
            subst hc2
            exact hcl (List.mem_cons_self _ _)
        refine ⟨p, ?_, hpne, parseParams_single p hpne hph hsp, ?_⟩
        · rw [formatParams_singleton, if_neg hpne, if_neg hcol]
        · intro q hq
          simp only [List.getLast?_singleton, Option.some.injEq] at hq
          subst hq
          rfl
    | cons q rest' =>
      subst hr
      have hpmid : p ≠ [] ∧ ' ' ∉ p ∧ p.head? ≠ some ':' :=
        hmid p (by rw [List.dropLast_cons₂]; exact List.mem_cons_self _ _)
      obtain ⟨hpne, hpsp, hph⟩ := hpmid
      have ihmid : ∀ z ∈ (q :: rest').dropLast, z ≠ [] ∧ ' ' ∉ z ∧ z.head? ≠ some ':' :=
        fun z hz => hmid z (by rw [List.dropLast_cons₂]; exact List.mem_cons_of_mem _ hz)
      have ihlast : ∀ z, (q :: rest').getLast? = some z → z ≠ [] := fun z hz =>
        hlast z (by rw [getLast?_cons_of_ne_nil p (by simp)]; exact hz)
      obtain ⟨r', hfp', hr'ne, hpp', hconn'⟩ := ih (by simp) ihmid ihlast
      refine ⟨p ++ ' ' :: r', ?_, by simp, ?_, ?_⟩
      · rw [formatParams_cons_cons, if_neg hpne, hfp']
        simp
      · rw [parseParams_token p r' hpne hph hpsp, hpp']
      · intro z hz
        rw [getLast?_cons_of_ne_nil p (by simp)] at hz
        rw [getLast?_append_of_ne_nil p (by simp : (' ' :: r') ≠ []),
          getLast?_cons_of_ne_nil ' ' hr'ne]
        exact hconn' z hz

/-! ### Structure of the command-and-parameters step -/

theorem parseCmdParams_eq_nil {R : List Char} (hdw : R.dropWhile nsp = []) :
    parseCmdParams R = (R, parseParams R) := by
  unfold parseCmdParams
  rw [hdw]

theorem parseCmdParams_eq_cons {R : List Char} {x : Char} {rem : List Char}
    (hdw : R.dropWhile nsp = x :: rem) :
    parseCmdParams R = (R.takeWhile nsp, parseParams rem) := by
  unfold parseCmdParams
  rw [hdw]

theorem parseTrimmed_nil : parseTrimmed [] = none := rfl

theorem parseTrimmed_noPrefix (c : Char) (rest : List Char) (hc : c ≠ ':') :
    parseTrimmed (c :: rest) =
      some ⟨none, (parseCmdParams (c :: rest)).1, (parseCmdParams (c :: rest)).2,
        c :: rest⟩ := by
  simp only [parseTrimmed]
  rw [if_neg hc]

theorem parseTrimmed_preNoSpace (rest : List Char) (hdw : rest.dropWhile nsp = []) :
    parseTrimmed (':' :: rest) = none := by
  simp only [parseTrimmed, if_true]
  rw [hdw]

theorem parseTrimmed_withPre (rest : List Char) (x : Char) (remaining : List Char)
    (hdw : rest.dropWhile nsp = x :: remaining) :
    parseTrimmed (':' :: rest) =
      some ⟨some (rest.takeWhile nsp), (parseCmdParams remaining).1,
        (parseCmdParams remaining).2, ':' :: rest⟩ := by
  simp only [parseTrimmed, if_true]
  rw [hdw]

theorem parseCmdParams_shape (R : List Char) (hR : R ≠ [])
    (hlastR : R.getLast? ≠ some ' ') :
    ' ' ∉ (parseCmdParams R).1 ∧ (parseCmdParams R).2 ≠ [] ∧
    (∀ p ∈ (parseCmdParams R).2.dropLast, ' ' ∉ p ∧ p.head? ≠ some ':') ∧
    (∀ p, (parseCmdParams R).2.getLast? = some p → p <:+ R) := by
  cases hdw : R.dropWhile nsp with
  | nil =>
    rw [parseCmdParams_eq_nil hdw]
    have hnsp : ∀ a ∈ R, nsp a := List.dropWhile_eq_nil_iff.mp hdw
    refine ⟨?_, parseParams_ne_nil hR, parseParams_middle R, ?_⟩
    · intro hm
      have h2 := hnsp ' ' hm
      simp [nsp] at h2
    · intro p hp
      exact parseParams_last_suffix hlastR hp
  | cons x rem =>
    rw [parseCmdParams_eq_cons hdw]
    have hsub : (x :: rem) <:+ R := hdw ▸ List.dropWhile_suffix nsp
    have hxsp : x = ' ' := by
      have h4 := List.head?_dropWhile_not nsp R
      rw [hdw] at h4
      simp only [List.head?_cons] at h4
      exact nsp_false_iff.mp h4
    have hremne : rem ≠ [] := by
      intro hcon
      subst hcon
      subst hxsp
      exact hlastR (getLast?_of_suffix hsub (by simp))
    refine ⟨?_, parseParams_ne_nil hremne, parseParams_middle rem, ?_⟩
    · intro hm
      have h5 := List.mem_takeWhile_imp hm
      simp [nsp] at h5
    · intro p hp
      have hsub2 : rem <:+ R := (List.suffix_cons x rem).trans hsub
      have hlast2 : rem.getLast? ≠ some ' ' := by
        rw [← getLast?_of_suffix hsub2 hremne]
        exact hlastR
      exact (parseParams_last_suffix hlast2 hp).trans hsub2

/-! ### Every accepted line yields a message of this shape -/

theorem parse_shape {line : List Char} {m : IrcMessage} (h : parse line = some m) :
    ' ' ∉ m.command ∧ m.params ≠ [] ∧
    (∀ p ∈ m.params.dropLast, ' ' ∉ p ∧ p.head? ≠ some ':') ∧
    (∀ p, m.params.getLast? = some p → p ≠ [] →
      ∀ ch, p.getLast? = some ch → isWs ch = false) := by
  unfold parse at h
  cases htr : trim line with
  | nil => rw [htr, parseTrimmed_nil] at h; exact absurd h (by simp)
  | cons c rest =>
    rw [htr] at h
    have hlastraw : ∀ ch, (c :: rest).getLast? = some ch → isWs ch = false := by
      intro ch hch
      exact trim_getLast_not_ws (l := line) (htr ▸ hch)
    have hlastsp : (c :: rest).getLast? ≠ some ' ' := by
      intro hcon
      have h6 := hlastraw ' ' hcon
      rw [isWs_space] at h6
      exact Bool.true_eq_false.mp h6
    by_cases hc : c = ':'
    · subst hc
      cases hdwr : rest.dropWhile nsp with
      | nil =>
        rw [parseTrimmed_preNoSpace rest hdwr] at h
        exact absurd h (by simp)
      | cons x remaining =>
        rw [parseTrimmed_withPre rest x remaining hdwr] at h
        have hsubx : (x :: remaining) <:+ (':' :: rest) :=
          (hdwr ▸ List.dropWhile_suffix nsp).trans (List.suffix_cons ':' rest)
        have hxsp : x = ' ' := by
          have h4 := List.head?_dropWhile_not nsp rest
          rw [hdwr] at h4
          simp only [List.head?_cons] at h4
          exact nsp_false_iff.mp h4
        have hRne : remaining ≠ [] := by
          intro hcon
          subst hcon
          subst hxsp
          exact hlastsp (getLast?_of_suffix hsubx (by simp))
        have hsubR : remaining <:+ (':' :: rest) :=
          (List.suffix_cons x remaining).trans hsubx
        have hRlast : remaining.getLast? ≠ some ' ' := by
          rw [← getLast?_of_suffix hsubR hRne]
          exact hlastsp
        obtain ⟨h1, h2, h3, h4⟩ := parseCmdParams_shape remaining hRne hRlast
        simp only [Option.some.injEq] at h
        subst h
        refine ⟨h1, h2, h3, ?_⟩
        intro p hp hpne ch hch
        have hsubp : p <:+ (':' :: rest) := (h4 p hp).trans hsubR
        exact hlastraw ch ((getLast?_of_suffix hsubp hpne).trans hch)
    · rw [parseTrimmed_noPrefix c rest hc] at h
      obtain ⟨h1, h2, h3, h4⟩ := parseCmdParams_shape (c :: rest) (by simp) hlastsp
      simp only [Option.some.injEq] at h
      subst h
      refine ⟨h1, h2, h3, ?_⟩
      intro p hp hpne ch hch
      exact hlastraw ch ((getLast?_of_suffix (h4 p hp) hpne).trans hch)

/-! ### A formatted command-and-parameters line parses back -/

theorem format_parses (cmd : List Char) (ps : List (List Char))
    (hcmd : headOk cmd = true) (hsp : ' ' ∉ cmd) (hps : ps ≠ [])
    (hmid : ∀ p ∈ ps.dropLast, p ≠ [] ∧ ' ' ∉ p ∧ p.head? ≠ some ':')
    (hlast : ∀ p, ps.getLast? = some p → p ≠ [] ∧
      ∀ ch, p.getLast? = some ch → isWs ch = false) :
    parse (format cmd ps) = some ⟨none, cmd, ps, format cmd ps⟩ := by
  obtain ⟨r, hfp, hrne, hpp, hconn⟩ :=
    formatParams_shape ps hps hmid (fun p hp => (hlast p hp).1)
  cases cmd with
  | nil => simp [headOk] at hcmd
  | cons c0 cmd' =>
    simp only [headOk, List.head?_cons, Bool.and_eq_true, Bool.not_eq_true',
      beq_eq_false_iff_ne, ne_eq] at hcmd
    obtain ⟨hc0, hw0⟩ := hcmd
    obtain ⟨lp, hlp⟩ : ∃ lp, ps.getLast? = some lp := by
      cases hgl : ps.getLast? with
      | none => exact absurd (List.getLast?_eq_none_iff.mp hgl) hps
      | some z => exact ⟨z, rfl⟩
    obtain ⟨hlpne, hlpws⟩ := hlast lp hlp
    have hline : format (c0 :: cmd') ps = (c0 :: cmd') ++ ' ' :: r := by
      rw [format, hfp]
    have hgll : ((c0 :: cmd') ++ ' ' :: r).getLast? = lp.getLast? := by
      rw [getLast?_append_of_ne_nil _ (by simp), getLast?_cons_of_ne_nil ' ' hrne,
        hconn lp hlp]
    have htr : trim ((c0 :: cmd') ++ ' ' :: r) = (c0 :: cmd') ++ ' ' :: r := by
      apply trim_eq_self
      · intro ch hch
        rw [List.cons_append, List.head?_cons] at hch
        have hce : c0 = ch := Option.some.inj hch
        exact hce ▸ hw0
      · intro ch hch
        rw [hgll] at hch
        exact hlpws ch hch
    have hallcmd : ∀ a ∈ c0 :: cmd', nsp a :=
      fun a ha => nsp_true_iff.mpr (fun he => hsp (he ▸ ha))
    have hdwl : ((c0 :: cmd') ++ ' ' :: r).dropWhile nsp = ' ' :: r := by
      rw [List.dropWhile_append_of_pos hallcmd,
        List.dropWhile_cons_of_neg (by simp [nsp])]
    have htwl : ((c0 :: cmd') ++ ' ' :: r).takeWhile nsp = c0 :: cmd' := by
      rw [List.takeWhile_append_of_pos hallcmd,
        List.takeWhile_cons_of_neg (by simp [nsp])]
      simp
    rw [hline]
    unfold parse
    rw [show (c0 :: cmd') ++ ' ' :: r = c0 :: (cmd' ++ ' ' :: r) from rfl] at htr ⊢
    rw [htr]
    rw [parseTrimmed_noPrefix c0 (cmd' ++ ' ' :: r) hc0]
    simp only [List.cons_append] at hdwl htwl
    rw [parseCmdParams_eq_cons hdwl, htwl, hpp]

/-! ### Dropping an empty parameter at a non-final position -/

theorem formatParams_drop_empty (xs ys : List (List Char)) (h : ys ≠ []) :
    formatParams (xs ++ [] :: ys) = formatParams (xs ++ ys) := by
  induction xs with
  | nil =>
    cases ys with
    | nil => exact absurd rfl h
    | cons q t =>
      show formatParams ([] :: q :: t) = formatParams (q :: t)
      rw [formatParams_cons_cons]
      simp
  | cons x xs ih =>
    have h1 : xs ++ [] :: ys ≠ [] := by simp
    have h2 : xs ++ ys ≠ [] := by
      intro hcon
      exact h (List.append_eq_nil.mp hcon).2
    cases hA : xs ++ [] :: ys with
    | nil => exact absurd hA h1
    | cons a as =>
      cases hB : xs ++ ys with
      | nil => exact absurd hB h2
      | cons b bs =>
        rw [List.cons_append, List.cons_append, hA, hB, formatParams_cons_cons,
          formatParams_cons_cons, ← hA, ← hB, ih]

/-! ### Reconnect-trace helpers -/

theorem fireReconnectFail_not_pending (c : Client) (h : c.pendingReconnect = false) :
    fireReconnectFail c = (c, []) := by
  unfold fireReconnectFail
  rw [if_neg (by simp [h])]

theorem runFailures_stable (n : Nat) (c : Client) (evs : List Ev)
    (h : c.pendingReconnect = false) : runFailures n (c, evs) = (c, evs) := by
  induction n with
  | zero => rfl
  | succ n ih =>
    show runFailures n ((fireReconnectFail c).1, evs ++ (fireReconnectFail c).2) =
      (c, evs)
    rw [fireReconnectFail_not_pending c h]
    simpa using ih

theorem runFailures_add (a b : Nat) (acc : Client × List Ev) :
    runFailures (a + b) acc = runFailures b (runFailures a acc) := by
  induction a generalizing acc with
  | zero => rw [Nat.zero_add]; rfl
  | succ a ih =>
    rw [Nat.succ_add]
    show runFailures (a + b)
        ((fireReconnectFail acc.1).1, acc.2 ++ (fireReconnectFail acc.1).2) =
      runFailures b (runFailures a
        ((fireReconnectFail acc.1).1, acc.2 ++ (fireReconnectFail acc.1).2))
    exact ih _

theorem failedConnectTrace_eq (n : Nat) :
    failedConnectTrace n = runFailures n (failedConnectTrace 0) := rfl

/-! ## Claims ## -/

/-- C1 (corrected).  Round-trip of the codec: the claim as stated is false
(see `parse_format_roundtrip_cx`).  Amended: for every line that `parse`
accepts, IF every parsed parameter is non-empty and the parsed command is
non-empty and starts with neither `':'` nor whitespace, then
`format(parse(line).command, parse(line).params)` is a line that `parse`
accepts again and that parses to the same command and the same ordered
params list, with no prefix reproduced. -/
theorem parse_format_roundtrip (line : List Char) (m : IrcMessage)
    (hp : parse line = some m) (hne : [] ∉ m.params)
    (hcmd : headOk m.command = true) :
    ∃ m', parse (format m.command m.params) = some m' ∧ m'.pre = none ∧
      m'.command = m.command ∧ m'.params = m.params := by
  obtain ⟨hsp, hpsne, hmid, hlastws⟩ := parse_shape hp
  refine ⟨⟨none, m.command, m.params, format m.command m.params⟩,
    format_parses m.command m.params hcmd hsp hpsne ?_ ?_, rfl, rfl, rfl⟩
  · intro p hpd
    refine ⟨?_, (hmid p hpd).1, (hmid p hpd).2⟩
    intro hcon
    exact hne (hcon ▸ (List.dropLast_sublist m.params).subset hpd)
  · intro p hple
    have hpmem : p ∈ m.params := mem_of_getLast? hple
    have hpne : p ≠ [] := fun hcon => hne (hcon ▸ hpmem)
    exact ⟨hpne, hlastws p hple hpne⟩

/-- C1 witness: the spec's concrete PRIVMSG line satisfies the amended
round-trip. -/
theorem parse_format_roundtrip_witness :
    ∃ m', parse (format (str "PRIVMSG") [str "#test", str "Hello world"]) = some m' ∧
      m'.pre = none ∧ m'.command = str "PRIVMSG" ∧
      m'.params = [str "#test", str "Hello world"] :=
  parse_format_roundtrip (str ":nick!u@h PRIVMSG #test :Hello world")
    ⟨some (str "nick!u@h"), str "PRIVMSG", [str "#test", str "Hello world"],
      str ":nick!u@h PRIVMSG #test :Hello world"⟩
    (by decide) (by decide) (by decide)

/-- C1 counterexample: four accepted lines on which the round-trip claim
fails as stated — an empty trailing parameter comes back as the command
text; a command starting with `':'`, an empty command, and a command
starting with whitespace all come back as different commands. -/
theorem parse_format_roundtrip_cx :
    ((parse (str "CMD :")).map IrcMessage.params = some [[]] ∧
      (parse (format (str "CMD") [[]])).map IrcMessage.params = some [str "CMD"]) ∧
    ((parse (str ":p :x")).map IrcMessage.command = some (str ":x") ∧
      (parse (format (str ":x") [str "x"])).map IrcMessage.command = some (str "x")) ∧
    ((parse (str ":p  x")).map IrcMessage.command = some [] ∧
      (parse (format [] [str "x"])).map IrcMessage.command = some (str "x")) ∧
    ((parse (str ":p \tC x")).map IrcMessage.command = some (str "\tC") ∧
      (parse (format (str "\tC") [str "x"])).map IrcMessage.command =
        some (str "C")) := by
  decide

/-- C2 (code_bug).  Fragmented frames: the `data` handler splits each read
chunk in isolation, so the chunks `"PRIV"` then `"MSG #a :hi\r\n"` are
handled as the two separate lines `"PRIV"` and `"MSG #a :hi"`, which parse
to the commands `PRIV` and `MSG` — no PRIVMSG message and no event at all
results from the two reads, while a buffered manager joining the fragments
would produce exactly one `Message` event. -/
theorem fragmented_frames_not_buffered :
    chunkLines (str "PRIV") = [str "PRIV"] ∧
    chunkLines (str "MSG #a :hi\r\n") = [str "MSG #a :hi"] ∧
    (parse (str "PRIV")).map IrcMessage.command = some (str "PRIV") ∧
    (parse (str "MSG #a :hi")).map IrcMessage.command = some (str "MSG") ∧
    onChunks connectedClient [str "PRIV", str "MSG #a :hi\r\n"] =
      (connectedClient, []) ∧
    (onData connectedClient (str "PRIVMSG #a :hi\r\n")).2 =
      [Ev.messageEv (str "system") (str "#a") (str "hi")] := by
  decide

/-- C3 (confirmed).  Processing a QUIT from nick N removes N from every
channel roster containing it, leaves every other channel entry (and the
entries' keys, the current nick and the connection state) unchanged, and
emits exactly one `quit` event whose affected-channel list is exactly the
names of the channels that contained N. -/
theorem quit_removes_everywhere (c : Client) (nick : List Char)
    (reason : Option (List Char)) :
    (∀ e ∈ (handleQuit c nick reason).1.channels, mapHas e.2.users nick = false)
    ∧ (∀ e ∈ c.channels, mapHas e.2.users nick = false →
        e ∈ (handleQuit c nick reason).1.channels)
    ∧ (∀ e ∈ c.channels, mapHas e.2.users nick = true →
        (e.1, {e.2 with users := mapDelete e.2.users nick}) ∈
          (handleQuit c nick reason).1.channels)
    ∧ (handleQuit c nick reason).1.channels.map Prod.fst = c.channels.map Prod.fst
    ∧ (handleQuit c nick reason).1.currentNick = c.currentNick
    ∧ (handleQuit c nick reason).1.connectionState = c.connectionState
    ∧ (handleQuit c nick reason).2 =
        [Ev.quitEv nick reason
          ((c.channels.filter (fun e => mapHas e.2.users nick)).map
            (fun e => e.2.name))] := by
  refine ⟨?_, ?_, ?_, ?_, rfl, rfl, rfl⟩
  · intro e he
    simp only [handleQuit] at he
    obtain ⟨a, ha, rfl⟩ := List.mem_map.mp he
    by_cases h : mapHas a.2.users nick = true
    · rw [if_pos h]
      exact mapHas_mapDelete a.2.users nick
    · rw [if_neg h]
      exact Bool.eq_false_iff.mpr h
  · intro e he h
    simp only [handleQuit]
    have hfe : (if mapHas e.2.users nick = true then
        (e.1, {e.2 with users := mapDelete e.2.users nick}) else e) = e := by
      rw [if_neg (by rw [h]; simp)]
    exact hfe ▸ List.mem_map_of_mem _ he
  · intro e he h
    simp only [handleQuit]
    have hfe : (if mapHas e.2.users nick = true then
        (e.1, {e.2 with users := mapDelete e.2.users nick}) else e) =
        (e.1, {e.2 with users := mapDelete e.2.users nick}) := by
      rw [if_pos h]
    exact hfe ▸ List.mem_map_of_mem _ he
  · simp only [handleQuit, List.map_map]
    apply List.map_congr_left
    intro a _
    by_cases h : mapHas a.2.users nick = true
    · rw [Function.comp_apply, if_pos h]
    · rw [Function.comp_apply, if_neg h]

/-- C3 witness: in the demo state where `#x` contains `a` and `b` and `#y`
contains `b`, quitting `a` keeps `#y` untouched and emits one event whose
affected list is exactly `["#x"]`. -/
theorem quit_removes_everywhere_witness :
    (str "#y", (⟨str "#y", none, [(str "b", ⟨str "b", []⟩)]⟩ : Channel)) ∈
      (handleQuit quitDemoClient (str "a") none).1.channels ∧
    (handleQuit quitDemoClient (str "a") none).2 =
      [Ev.quitEv (str "a") none [str "#x"]] := by
  constructor
  · exact (quit_removes_everywhere quitDemoClient (str "a") none).2.1 _
      (by decide) (by decide)
  · have h := (quit_removes_everywhere quitDemoClient (str "a") none).2.2.2.2.2.2
    rw [h]
    decide

/-- C4 (corrected).  Reconnect bound: after the five automatically scheduled
reconnect attempts have all failed, exactly one `reconnect_failed` event has
been emitted, no reconnect timer is pending and no further attempt ever
fires (the trace is constant from then on) — but the connection state
remains `error`, not `disconnected` as the claim states (see
`reconnect_bound_cx`), until an explicit new `connect` call. -/
theorem reconnect_bound (k : Nat) :
    (failedConnectTrace maxReconnectAttempts).2.count Ev.reconnectFailedEv = 1 ∧
    (failedConnectTrace maxReconnectAttempts).1.pendingReconnect = false ∧
    (failedConnectTrace maxReconnectAttempts).1.connectionState = CState.error ∧
    failedConnectTrace (maxReconnectAttempts + k) =
      failedConnectTrace maxReconnectAttempts := by
  refine ⟨by decide, by decide, by decide, ?_⟩
  rw [failedConnectTrace_eq (maxReconnectAttempts + k), runFailures_add,
    ← failedConnectTrace_eq]
  have h : (failedConnectTrace maxReconnectAttempts).1.pendingReconnect = false := by
    decide
  have h2 := runFailures_stable k (failedConnectTrace maxReconnectAttempts).1
    (failedConnectTrace maxReconnectAttempts).2 h
  simpa using h2

/-- C4 witness: the amended reconnect bound at three extra timer fires. -/
theorem reconnect_bound_witness :
    (failedConnectTrace maxReconnectAttempts).2.count Ev.reconnectFailedEv = 1 ∧
    (failedConnectTrace maxReconnectAttempts).1.pendingReconnect = false ∧
    (failedConnectTrace maxReconnectAttempts).1.connectionState = CState.error ∧
    failedConnectTrace (maxReconnectAttempts + 3) =
      failedConnectTrace maxReconnectAttempts :=
  reconnect_bound 3

/-- C4 counterexample: when the terminal `reconnect_failed` is emitted the
connection state is `error`, refuting the claim's "stays 'disconnected'". -/
theorem reconnect_bound_cx :
    (failedConnectTrace maxReconnectAttempts).2.count Ev.reconnectFailedEv = 1 ∧
    (failedConnectTrace maxReconnectAttempts).1.connectionState = CState.error ∧
    (failedConnectTrace maxReconnectAttempts).1.connectionState ≠
      CState.disconnected := by
  decide

/-- C5 (code_bug).  An explicit `disconnect()` of a connected client is
followed by the socket's `close` event, whose handler — lacking any
manual-disconnect flag despite its own "Auto-reconnect if not manually
disconnected" comment — schedules a reconnect: a timer becomes pending, a
`reconnecting(1)` event is emitted and the state moves to `reconnecting`. -/
theorem disconnect_close_still_reconnects :
    (socketCloseEvent (disconnectStep connectedClient).1).1.pendingReconnect = true ∧
    (socketCloseEvent (disconnectStep connectedClient).1).2 =
      [Ev.disconnectedEv, Ev.reconnectingEv 1] ∧
    (socketCloseEvent (disconnectStep connectedClient).1).1.connectionState =
      CState.reconnecting := by
  decide

/-- C6 (corrected, amended).  `send` fails with `NotConnected`, writing
nothing, exactly when the socket is absent or the state is literally
`"disconnected"`; in every other non-connected state (`connecting`,
`reconnecting`, `error`) with a live socket the line is written (see
`send_not_connected_cx`). -/
theorem send_fails_iff (c : Client) (cmd : List Char) (ps : List (List Char)) :
    sendResult c cmd ps = none ↔
      (c.socketPresent = false ∨ c.connectionState = CState.disconnected) := by
  unfold sendResult
  split
  · rename_i h
    simp only [Bool.or_eq_true, Bool.not_eq_true', decide_eq_true_eq] at h
    exact iff_of_true rfl h
  · rename_i h
    simp only [Bool.or_eq_true, Bool.not_eq_true', decide_eq_true_eq] at h
    push_neg at h
    exact iff_of_false (by simp) (by simpa using h)

/-- C6 counterexample: in state `error` (≠ `connected`) with a live socket,
`send` does not fail and writes the formatted line to the socket. -/
theorem send_not_connected_cx :
    CState.error ≠ CState.connected ∧
    sendResult ⟨CState.error, [], str "me", true, 5, false, false⟩
      (str "PRIVMSG") [str "#a", str "hi"] =
      some (str "PRIVMSG #a hi" ++ ['\r', '\n']) := by
  decide

/-- C7 (code_bug).  `quit("bye")` wraps the reason as `":bye"` and `format`
colon-prefixes it again, so the wire line is `"QUIT ::bye"`, which parses
back to the one-element params list `[":bye"]` — not `["bye"]` as the claim
(and the spec's format contract) require. -/
theorem quit_reason_double_colon :
    quitWire connectedClient (some (str "bye")) =
      some (str "QUIT ::bye" ++ ['\r', '\n']) ∧
    (parse (str "QUIT ::bye")).map IrcMessage.params = some [str ":bye"] ∧
    (str ":bye" : List Char) ≠ str "bye" := by
  decide

/-- C8 (corrected).  Channel creation on first reference: JOIN creates the
missing channel and inserts the joining nick with empty modes; but a `353`
NAMES reply for an absent channel is IGNORED (no channel is created, no
event emitted — see `channel_creation_cx`); on an existing channel `353`
populates the roster with `@` giving mode `op` and `+` giving `voice`. -/
theorem channel_creation (c : Client) (nick ch ns : List Char)
    (habs : mapHas c.channels ch = false) :
    (mapGet (handleJoin c nick ch).1.channels ch =
      some ⟨ch, none, [(nick, ⟨nick, []⟩)]⟩ ∧
     (handleJoin c nick ch).2 = [Ev.joinEv nick ch])
    ∧ handleNames c ch ns = (c, [])
    ∧ mapGet (handleNames namesDemoClient (str "#x")
        (str "@alice +bob carol")).1.channels (str "#x") =
      some ⟨str "#x", none,
        [(str "alice", ⟨str "alice", [str "op"]⟩),
         (str "bob", ⟨str "bob", [str "voice"]⟩),
         (str "carol", ⟨str "carol", []⟩)]⟩
    ∧ (handleNames namesDemoClient (str "#x") (str "@alice +bob carol")).2 =
      [Ev.userlistEv (str "#x")
        [⟨str "alice", [str "op"]⟩, ⟨str "bob", [str "voice"]⟩,
         ⟨str "carol", []⟩]] := by
  have hcond : ¬ (mapHas c.channels ch = true) := by simp [habs]
  have hJ : handleJoin c nick ch =
      ({c with channels := mapSet (mapSet c.channels ch ⟨ch, none, []⟩) ch ⟨ch, none, [(nick, ⟨nick, []⟩)]⟩}, [Ev.joinEv nick ch]) := by
    unfold handleJoin
    simp only [if_neg hcond, mapGet_mapSet_self]
    rfl
  refine ⟨⟨?_, ?_⟩, ?_, by decide, by decide⟩
  · rw [hJ]
    exact mapGet_mapSet_self _ _ _
  · rw [hJ]
  · unfold handleNames
    rw [mapGet_eq_none_of_not_has habs]

/-- C8 witness: the amended statement at a concrete absent channel. -/
theorem channel_creation_witness :
    (mapGet (handleJoin initialClient (str "n") (str "#x")).1.channels (str "#x") =
      some ⟨str "#x", none, [(str "n", ⟨str "n", []⟩)]⟩ ∧
     (handleJoin initialClient (str "n") (str "#x")).2 =
       [Ev.joinEv (str "n") (str "#x")])
    ∧ handleNames initialClient (str "#x") (str "ns") = (initialClient, [])
    ∧ mapGet (handleNames namesDemoClient (str "#x")
        (str "@alice +bob carol")).1.channels (str "#x") =
      some ⟨str "#x", none,
        [(str "alice", ⟨str "alice", [str "op"]⟩),
         (str "bob", ⟨str "bob", [str "voice"]⟩),
         (str "carol", ⟨str "carol", []⟩)]⟩
    ∧ (handleNames namesDemoClient (str "#x") (str "@alice +bob carol")).2 =
      [Ev.userlistEv (str "#x")
        [⟨str "alice", [str "op"]⟩, ⟨str "bob", [str "voice"]⟩,
         ⟨str "carol", []⟩]] :=
  channel_creation initialClient (str "n") (str "#x") (str "ns") (by decide)

/-- C8 counterexample: a `353` NAMES reply naming an absent channel does not
create the channel entry — the state is returned untouched and no event is
emitted, refuting "even when the channel did not previously exist". -/
theorem channel_creation_cx :
    handleNames initialClient (str "#x") (str "@alice +bob carol") =
      (initialClient, []) ∧
    mapHas initialClient.channels (str "#x") = false := by
  decide

/-- C9 (confirmed).  Malformed-line recovery: a line the codec rejects
leaves the whole client state (channels, nick, connection state) unchanged,
emits nothing, and processing of the subsequent lines continues as if the
bad line had not been there. -/
theorem malformed_line_recovery (c : Client) (line : List Char)
    (rest : List (List Char)) (h : parse line = none) :
    handleRawMessage c line = (c, []) ∧
    processLines c (line :: rest) = processLines c rest := by
  have h1 : handleRawMessage c line = (c, []) := by
    unfold handleRawMessage
    rw [h]
  refine ⟨h1, ?_⟩
  simp [processLines, h1]

/-- C9 witness: the rejected line `":x"` (prefix with no following space)
is skipped and processing continues with the next line. -/
theorem malformed_line_recovery_witness :
    handleRawMessage connectedClient (str ":x") = (connectedClient, []) ∧
    processLines connectedClient [str ":x", str "PING"] =
      processLines connectedClient [str "PING"] :=
  malformed_line_recovery connectedClient (str ":x") [str "PING"] (by decide)

/-- C10 (corrected).  Format drops empty parameters — amended: an empty
parameter emits no characters; `format(cmd, [""])` equals `cmd`; and an
empty parameter at any NON-final position can be removed from the list
without changing the line.  (A final empty parameter, though emitting
nothing itself, changes whether the preceding parameter is colon-prefixed —
see `format_drops_empty_params_cx`.) -/
theorem format_drops_empty_params (cmd : List Char) (xs ys : List (List Char))
    (h : ys ≠ []) :
    format cmd (xs ++ [] :: ys) = format cmd (xs ++ ys) ∧
    format cmd [[]] = cmd := by
  constructor
  · unfold format
    rw [formatParams_drop_empty xs ys h]
  · unfold format
    rw [formatParams_singleton, if_pos rfl, List.append_nil]

/-- C10 witness: deleting the empty middle parameter leaves the line
unchanged, and a lone empty parameter yields the bare command. -/
theorem format_drops_empty_params_witness :
    format (str "CMD") ([str "a"] ++ [] :: [str "b"]) =
      format (str "CMD") ([str "a"] ++ [str "b"]) ∧
    format (str "CMD") [[]] = str "CMD" :=
  format_drops_empty_params (str "CMD") [str "a"] [str "b"] (by decide)

/-- C10 counterexample: a trailing empty parameter is not droppable from
the list — its presence stops the preceding `"a b"` from being
colon-prefixed, so the claim's "at any position" fails. -/
theorem format_drops_empty_params_cx :
    format (str "CMD") [str "a b", []] = str "CMD a b" ∧
    format (str "CMD") [str "a b"] = str "CMD :a b" ∧
    (str "CMD a b" : List Char) ≠ str "CMD :a b" := by
  decide

end TuIRC
